import Mathlib

set_option maxRecDepth 10000

/-!
Verification of the goarabic string utilities (stringutils.go) against their
specification.  Strings are modelled rune-wise as `List Char`, matching Go's
`[]rune` iteration.  The letters data file (the `Harf` struct instances:
`alphabet`, `beggining_after`, `tashkeel`) is not part of the sources at hand,
so those tables appear as parameters; their shape follows the spec's Letter
data model (one canonical code point plus four presentation forms).
-/

namespace Goarabic

/-- The Arabic letter record.  Modelled from the spec: the Letter Table's
entries each carry the canonical code point and the four presentation forms
(field names follow the Go code's usage in stringutils.go: `Unicode`,
`Beggining`, `Isolated`, `Medium`, `Final`). -/
structure Harf where
  Unicode : Char
  Beggining : Char
  Isolated : Char
  Medium : Char
  Final : Char
  deriving DecidableEq, Repr

/-- `equals` returns true if the given Arabic char is alphabetically equal to
the current Harf regardless of its shape (glyph) — the Go `switch` over the
five recorded code points. -/
def Harf.equals (c : Harf) (char : Char) : Bool :=
  if char = c.Unicode then true
  else if char = c.Beggining then true
  else if char = c.Isolated then true
  else if char = c.Medium then true
  else if char = c.Final then true
  else false

/-- The five code points recorded for a letter, as a list. -/
def Harf.codes (c : Harf) : List Char :=
  [c.Unicode, c.Beggining, c.Isolated, c.Medium, c.Final]

/-- `h1.overlaps h2`: some code point is recorded by both letters. -/
def Harf.overlaps (h1 h2 : Harf) : Bool :=
  h1.codes.any (fun c => h2.equals c)

/-- A letter table is coherent when two entries recording a common code point
are the same entry.  This is the spec's Letter Table invariant ("exactly one
Letter entry per distinct letter identity"). -/
def coherent (T : List Harf) : Prop :=
  ∀ h1 ∈ T, ∀ h2 ∈ T, h1.overlaps h2 = true → h1 = h2

/-- The NUL rune, used by `ToGlyph` as the out-of-bounds neighbor sentinel. -/
def nul : Char := Char.ofNat 0

/-- The Arabic-script ranges filled by `fillIsArabicMap` in stringutils.go. -/
def isArabic (c : Char) : Bool :=
  (0x0600 ≤ c.toNat && c.toNat ≤ 0x06FF) ||
  (0x0750 ≤ c.toNat && c.toNat ≤ 0x077F) ||
  (0x08A0 ≤ c.toNat && c.toNat ≤ 0x08FF) ||
  (0xFB50 ≤ c.toNat && c.toNat ≤ 0xFDFF) ||
  (0xFE70 ≤ c.toNat && c.toNat ≤ 0xFEFF) ||
  (0x10E60 ≤ c.toNat && c.toNat ≤ 0x10E7F)

/-- The inclusive ranges of the Unicode decimal-digit category Nd, which is
what Go's `unicode.IsDigit` tests (external standard-library collaborator,
embedded from its documented behavior). -/
def NdRanges : List (Nat × Nat) :=
  [(0x0030, 0x0039), (0x0660, 0x0669), (0x06F0, 0x06F9), (0x07C0, 0x07C9),
   (0x0966, 0x096F), (0x09E6, 0x09EF), (0x0A66, 0x0A6F), (0x0AE6, 0x0AEF),
   (0x0B66, 0x0B6F), (0x0BE6, 0x0BEF), (0x0C66, 0x0C6F), (0x0CE6, 0x0CEF),
   (0x0D66, 0x0D6F), (0x0DE6, 0x0DEF), (0x0E50, 0x0E59), (0x0ED0, 0x0ED9),
   (0x0F20, 0x0F29), (0x1040, 0x1049), (0x1090, 0x1099), (0x17E0, 0x17E9),
   (0x1810, 0x1819), (0x1946, 0x194F), (0x19D0, 0x19D9), (0x1A80, 0x1A89),
   (0x1A90, 0x1A99), (0x1B50, 0x1B59), (0x1BB0, 0x1BB9), (0x1C40, 0x1C49),
   (0x1C50, 0x1C59), (0xA620, 0xA629), (0xA8D0, 0xA8D9), (0xA900, 0xA909),
   (0xA9D0, 0xA9D9), (0xA9F0, 0xA9F9), (0xAA50, 0xAA59), (0xABF0, 0xABF9),
   (0xFF10, 0xFF19), (0x104A0, 0x104A9), (0x10D30, 0x10D39),
   (0x11066, 0x1106F), (0x110F0, 0x110F9), (0x11136, 0x1113F),
   (0x111D0, 0x111D9), (0x112F0, 0x112F9), (0x11450, 0x11459),
   (0x114D0, 0x114D9), (0x11650, 0x11659), (0x116C0, 0x116C9),
   (0x11730, 0x11739), (0x118E0, 0x118E9), (0x11950, 0x11959),
   (0x11C50, 0x11C59), (0x11D50, 0x11D59), (0x11DA0, 0x11DA9),
   (0x16A60, 0x16A69), (0x16AC0, 0x16AC9), (0x16B50, 0x16B59),
   (0x1D7CE, 0x1D7FF), (0x1E140, 0x1E149), (0x1E2F0, 0x1E2F9),
   (0x1E950, 0x1E959), (0x1FBF0, 0x1FBF9)]

/-- Go's `unicode.IsDigit`: membership in the decimal-digit category Nd. -/
def unicodeIsDigit (c : Char) : Bool :=
  NdRanges.any (fun p => p.1 ≤ c.toNat && c.toNat ≤ p.2)

/-- `isNumeric` from stringutils.go: a digit (Western or Arabic). -/
def isNumeric (r : Char) : Bool :=
  unicodeIsDigit r || (0x0660 ≤ r.toNat && r.toNat ≤ 0x0669)

/-- Go's `unicode.IsSpace`: the White_Space code points (external
standard-library collaborator, embedded from its documented behavior). -/
def isSpace (c : Char) : Bool :=
  (9 ≤ c.toNat && c.toNat ≤ 13) || c.toNat = 32 || c.toNat = 0x85 ||
  c.toNat = 0xA0 || c.toNat = 0x1680 ||
  (0x2000 ≤ c.toNat && c.toNat ≤ 0x200A) ||
  c.toNat = 0x2028 || c.toNat = 0x2029 || c.toNat = 0x202F ||
  c.toNat = 0x205F || c.toNat = 0x3000

/-- `Reverse` from stringutils.go: rune-wise reversal. -/
def Reverse (s : List Char) : List Char := s.reverse

/-- `SmartLength` from stringutils.go: length skipping the tashkeel set.
The tashkeel table lives in the letters data file, so it is a parameter. -/
def SmartLength (tashkeel : Char → Bool) : List Char → Nat
  | [] => 0
  | c :: t => if tashkeel c then SmartLength tashkeel t else SmartLength tashkeel t + 1

/-- `RemoveTashkeel` from stringutils.go: drop every tashkeel code point. -/
def RemoveTashkeel (tashkeel : Char → Bool) : List Char → List Char
  | [] => []
  | c :: t => if tashkeel c then RemoveTashkeel tashkeel t else c :: RemoveTashkeel tashkeel t

/-- `getHarf` from stringutils.go: the first alphabet entry matching the char,
or the default record (Go zero value for the `Beggining` field). -/
def getHarf (alphabet : List Harf) (char : Char) : Harf :=
  match alphabet.find? (fun s => s.equals char) with
  | some s => s
  | none =>
      { Unicode := char, Beggining := Char.ofNat 0, Isolated := char,
        Medium := char, Final := char }

/-- `getCharGlyph` from stringutils.go.  The Go outer loop returns at the
first alphabet entry matching `currentChar` (modelled with `find?`; the
returned value only depends on `getHarf currentChar`, not on which entry
matched); if no entry matches, the char itself is returned.  The final
`else` branch is unreachable (the four boolean cases are exhaustive). -/
def getCharGlyph (alphabet beggining_after : List Harf)
    (previousChar currentChar nextChar : Char) : Char :=
  let previousIn := alphabet.any (fun s => s.equals previousChar)
  let nextIn := alphabet.any (fun s => s.equals nextChar)
  match alphabet.find? (fun s => s.equals currentChar) with
  | none => currentChar
  | some _ =>
    if previousIn && nextIn then
      if beggining_after.any (fun s => s.equals previousChar) then
        (getHarf alphabet currentChar).Beggining
      else
        (getHarf alphabet currentChar).Medium
    else if nextIn then (getHarf alphabet currentChar).Beggining
    else if previousIn then
      if beggining_after.any (fun s => s.equals previousChar) then
        (getHarf alphabet currentChar).Isolated
      else
        (getHarf alphabet currentChar).Final
    else if !previousIn && !nextIn then (getHarf alphabet currentChar).Isolated
    else currentChar

/-- The spec's four-case positional rule (§4.2 / claim C1), written the way
the spec states it: find the Letter matching the current code point, test
which neighbors match Letter entries, then pick the form. -/
def specCharGlyph (alphabet beggining_after : List Harf)
    (prev cur next : Char) : Char :=
  match alphabet.find? (fun s => s.equals cur) with
  | none => cur
  | some h =>
    let prevIsLetter := alphabet.any (fun s => s.equals prev)
    let nextIsLetter := alphabet.any (fun s => s.equals next)
    let prevNonJoining := beggining_after.any (fun s => s.equals prev)
    if prevIsLetter && nextIsLetter then
      if prevNonJoining then h.Beggining else h.Medium
    else if !prevIsLetter && nextIsLetter then h.Beggining
    else if prevIsLetter && !nextIsLetter then
      if prevNonJoining then h.Isolated else h.Final
    else h.Isolated

/-- The previous rune seen by `ToGlyph` at index `i` (rune 0 before the
start, as in stringutils.go). -/
def prevAt (text : List Char) (i : Nat) : Char :=
  if i = 0 then nul else text.getD (i - 1) nul

/-- The next rune seen by `ToGlyph` at index `i` (rune 0 past the end, as in
stringutils.go; the Go guard is `i+1 <= length-1`). -/
def nextAt (text : List Char) (i : Nat) : Char :=
  if i + 1 ≤ text.length - 1 then text.getD (i + 1) nul else nul

/-- `ToGlyph` from stringutils.go: map every position to its glyph, feeding
`getCharGlyph` the neighboring runes (or the 0 sentinel at the ends). -/
def ToGlyph (alphabet beggining_after : List Harf) (text : List Char) : List Char :=
  (List.range text.length).map (fun i =>
    getCharGlyph alphabet beggining_after
      (prevAt text i) (text.getD i nul) (nextAt text i))

/-- Accumulator loop behind `fields`: `cur` holds the runes of the word being
scanned, in reverse. -/
def fieldsAux : List Char → List Char → List (List Char)
  | cur, [] => if cur.isEmpty then [] else [cur.reverse]
  | cur, c :: t =>
      if isSpace c then
        if cur.isEmpty then fieldsAux [] t else cur.reverse :: fieldsAux [] t
      else fieldsAux (c :: cur) t

/-- Go's `strings.Fields`: split around runs of white space (external
standard-library collaborator, embedded from its documented behavior). -/
def fields (s : List Char) : List (List Char) := fieldsAux [] s

/-- Go's `strings.Join(ws, " ")` on rune lists. -/
def joinWords : List (List Char) → List Char
  | [] => []
  | [w] => w
  | w :: ws => w ++ ' ' :: joinWords ws

/-- Go's `strings.Join(lines, "\n")` on rune lists. -/
def joinLines : List (List Char) → List Char
  | [] => []
  | [l] => l
  | l :: ls => l ++ '\n' :: joinLines ls

/-- Go's `strings.TrimSpace`: drop leading and trailing white space. -/
def trimSpace (s : List Char) : List Char :=
  (((s.dropWhile isSpace).reverse).dropWhile isSpace).reverse

/-- The word loop of `splitIntoLinesByChars` from stringutils.go.  State:
produced `lines`, the `currentLine`, and `currentLineCount` (rune count).
On overflow the current line is flushed and the word restarts the line (in
the Go code the flush resets the count to 0 and the same iteration's
`currentLineCount == 0` branch then writes the word). -/
def splitAux (maxChars : Int) :
    List (List Char) → List (List Char) → List Char → Nat → List (List Char)
  | [], lines, currentLine, _ =>
      if currentLine.isEmpty then lines else lines ++ [trimSpace currentLine]
  | w :: ws, lines, currentLine, currentLineCount =>
      if 0 < currentLineCount ∧
          maxChars < (currentLineCount : Int) + ((w.length : Int) + 1) then
        splitAux maxChars ws (lines ++ [trimSpace currentLine]) w w.length
      else if currentLineCount = 0 then
        splitAux maxChars ws lines w w.length
      else
        splitAux maxChars ws lines (currentLine ++ ' ' :: w)
          (currentLineCount + (w.length + 1))

/-- `splitIntoLinesByChars` from stringutils.go. -/
def splitIntoLinesByChars (text : List Char) (maxChars : Int) : List (List Char) :=
  splitAux maxChars (fields text) [] [] 0

/-- Word contains an Arabic-script rune (the `isArabicWord` flag of
`FixBidiText`). -/
def isArabicWord (w : List Char) : Bool := w.any isArabic

/-- Every rune of the word is a digit (the `isNumericWord` flag of
`FixBidiText`; vacuously true on the empty word, as in the Go loop). -/
def isNumericWord (w : List Char) : Bool := w.all isNumeric

/-- The `isEnglish` test of `FixBidiText`'s re-scan loop: no rune is
Arabic-script or a digit. -/
def isEnglishWord (w : List Char) : Bool :=
  w.all (fun r => !(isArabic r || isNumeric r))

/-- The per-word `switch` of `FixBidiText`: numeric words and non-Arabic
words pass through; Arabic words are shaped then reversed. -/
def processWord (alphabet beggining_after : List Harf) (w : List Char) : List Char :=
  if isNumericWord w then w
  else if isArabicWord w then Reverse (ToGlyph alphabet beggining_after w)
  else w

/-- The re-scan loop of `FixBidiText` ("reverse back consecutive English
words").  `run` plays the Go `start` marker: it accumulates the current
English run in reverse, so flushing it emits exactly the in-place
`reverseSlice(processedWords[start:i])` of the Go code. -/
def revRunsAux : List (List Char) → List (List Char) → List (List Char)
  | run, [] => run
  | run, w :: ws =>
      if isEnglishWord w then revRunsAux (w :: run) ws
      else run ++ w :: revRunsAux [] ws

/-- The whole re-scan pass over the reversed word list. -/
def reverseEnglishRuns (ws : List (List Char)) : List (List Char) :=
  revRunsAux [] ws

/-- Reversal of every maximal contiguous run of English words, stated the
way the (amended) spec sentence reads: a maximal run of words with no
Arabic-script and no digit rune is internally reversed; any other word is a
run boundary and stays in place. -/
def runsSpec (ws : List (List Char)) : List (List Char) :=
  match ws with
  | [] => []
  | w :: t =>
      if isEnglishWord w then
        (w :: t.takeWhile isEnglishWord).reverse ++ runsSpec (t.dropWhile isEnglishWord)
      else w :: runsSpec t
termination_by ws.length
decreasing_by
  · simp only [List.length_cons]
    have H : ∀ (l : List (List Char)),
        (l.dropWhile isEnglishWord).length ≤ l.length := by
      intro l
      induction l with
      | nil => simp [List.dropWhile]
      | cons a t2 ih =>
          rw [List.dropWhile_cons]
          split
          · exact Nat.le_succ_of_le ih
          · simp
    exact Nat.lt_succ_of_le (H t)
  · simp

/-- The per-line body of `FixBidiText`: split into words, transform each,
reverse the word order for RTL flow, restore English runs, join by single
spaces. -/
def processLine (alphabet beggining_after : List Harf) (line : List Char) : List Char :=
  joinWords (reverseEnglishRuns (((fields line).map
    (processWord alphabet beggining_after)).reverse))

/-- `FixBidiText` from stringutils.go. -/
def FixBidiText (alphabet beggining_after : List Harf)
    (text : List Char) (maxCharsPerLine : Int) : List Char :=
  if text.isEmpty then text
  else
    let lines :=
      if 0 < maxCharsPerLine then splitIntoLinesByChars text maxCharsPerLine
      else [text]
    joinLines (lines.map (processLine alphabet beggining_after))

/-- The shape `strings.Fields` guarantees for its output words: nonempty and
free of white space. -/
def goodWords (g : List (List Char)) : Prop :=
  ∀ w ∈ g, w ≠ [] ∧ ∀ c ∈ w, isSpace c = false

/-- Word-group view of the greedy wrap loop: same branch conditions as
`splitAux`, but lines are kept as their word groups. -/
def wrapAux (maxChars : Int) : List (List Char) → List (List Char) → List (List (List Char))
  | gcur, [] => if gcur.isEmpty then [] else [gcur]
  | gcur, w :: ws =>
      if 0 < (joinWords gcur).length ∧
          maxChars < ((joinWords gcur).length : Int) + ((w.length : Int) + 1) then
        gcur :: wrapAux maxChars [w] ws
      else if (joinWords gcur).length = 0 then
        wrapAux maxChars [w] ws
      else
        wrapAux maxChars (gcur ++ [w]) ws

/-- Modelled from the spec: a small concrete Letter Table (the letters data
file with the full `alphabet` is not among the sources).  It records the
spec's §8 example letters bāʼ, yāʼ, tāʼ plus the non-connecting alif, each
with canonical code point and the four presentation forms ("may repeat the
canonical value if a form does not exist for that letter"). -/
def sampleAlphabet : List Harf :=
  [{ Unicode := Char.ofNat 0x0627, Beggining := Char.ofNat 0xFE8D,
     Isolated := Char.ofNat 0xFE8D, Medium := Char.ofNat 0xFE8E,
     Final := Char.ofNat 0xFE8E },
   { Unicode := Char.ofNat 0x0628, Beggining := Char.ofNat 0xFE91,
     Isolated := Char.ofNat 0xFE8F, Medium := Char.ofNat 0xFE92,
     Final := Char.ofNat 0xFE90 },
   { Unicode := Char.ofNat 0x064A, Beggining := Char.ofNat 0xFEF3,
     Isolated := Char.ofNat 0xFEF1, Medium := Char.ofNat 0xFEF4,
     Final := Char.ofNat 0xFEF2 },
   { Unicode := Char.ofNat 0x062A, Beggining := Char.ofNat 0xFE97,
     Isolated := Char.ofNat 0xFE95, Medium := Char.ofNat 0xFE98,
     Final := Char.ofNat 0xFE96 }]

/-- Modelled from the spec: a sample non-joining-after set (the
`beggining_after` map of the letters data file is not among the sources).
Alif does not connect to a following letter. -/
def sampleBegAfter : List Harf :=
  [{ Unicode := Char.ofNat 0x0627, Beggining := Char.ofNat 0xFE8D,
     Isolated := Char.ofNat 0xFE8D, Medium := Char.ofNat 0xFE8E,
     Final := Char.ofNat 0xFE8E }]

end Goarabic

namespace Goarabic

/-- C9: for every vowel-mark set and every string, `SmartLength` equals the
number of code points `RemoveTashkeel` returns: one counts the survivors of
the same membership filter whose survivors the other returns. -/
theorem smartLength_counts_removeTashkeel (tashkeel : Char → Bool) (s : List Char) :
    SmartLength tashkeel s = (RemoveTashkeel tashkeel s).length := by
  induction s with
  | nil => rfl
  | cons c t ih =>
      simp only [SmartLength, RemoveTashkeel]
      by_cases h : tashkeel c <;> simp [h, ih]

theorem bool_ext {a b : Bool} (h : a = true ↔ b = true) : a = b := by
  cases a <;> cases b <;> simp_all

theorem equals_iff (h : Harf) (c : Char) :
    h.equals c = true ↔ c ∈ h.codes := by
  simp only [Harf.equals, Harf.codes]
  split_ifs with h1 h2 h3 h4 h5 <;> simp_all

theorem equals_of_mem_codes {h : Harf} {c : Char} (hc : c ∈ h.codes) :
    h.equals c = true := (equals_iff h c).mpr hc

theorem overlaps_intro {h1 h2 : Harf} {c : Char}
    (ha : h1.equals c = true) (hb : h2.equals c = true) :
    h1.overlaps h2 = true := by
  rw [Harf.overlaps, List.any_eq_true]
  exact ⟨c, (equals_iff h1 c).mp ha, hb⟩

theorem getCharGlyph_eq_spec (A B : List Harf) (p c n : Char) :
    getCharGlyph A B p c n = specCharGlyph A B p c n := by
  unfold getCharGlyph specCharGlyph
  cases hfind : A.find? (fun s => s.equals c) with
  | none => simp
  | some h =>
      have hharf : getHarf A c = h := by simp [getHarf, hfind]
      cases hp : A.any (fun s => s.equals p) <;>
        cases hn : A.any (fun s => s.equals n) <;>
          cases hb : B.any (fun s => s.equals p) <;>
            simp [hharf]

theorem toGlyph_length (A B : List Harf) (t : List Char) :
    (ToGlyph A B t).length = t.length := by
  simp [ToGlyph]

theorem toGlyph_getElem (A B : List Harf) (t : List Char) (i : Nat)
    (h : i < (ToGlyph A B t).length) :
    (ToGlyph A B t)[i] =
      getCharGlyph A B (prevAt t i) (t.getD i nul) (nextAt t i) := by
  simp only [ToGlyph, List.getElem_map, List.getElem_range]

theorem toGlyph_getD (A B : List Harf) (t : List Char) (i : Nat)
    (h : i < t.length) :
    (ToGlyph A B t).getD i nul =
      specCharGlyph A B (prevAt t i) (t.getD i nul) (nextAt t i) := by
  have hl : i < (ToGlyph A B t).length := by rw [toGlyph_length]; exact h
  rw [List.getD_eq_getElem _ _ hl, toGlyph_getElem, getCharGlyph_eq_spec]

theorem spec_none (A B : List Harf) (p c n : Char)
    (hfind : A.find? (fun s => s.equals c) = none) :
    specCharGlyph A B p c n = c := by
  unfold specCharGlyph
  rw [hfind]

theorem spec_form (A B : List Harf) (p c n : Char) (h : Harf)
    (hfind : A.find? (fun s => s.equals c) = some h) :
    specCharGlyph A B p c n ∈ h.codes := by
  unfold specCharGlyph
  rw [hfind]
  simp only [Harf.codes, List.mem_cons, List.mem_singleton]
  split_ifs <;> simp

theorem find?_equals {A : List Harf} {c : Char} {h : Harf}
    (hfind : A.find? (fun s => s.equals c) = some h) : h.equals c = true := by
  have hx := List.find?_some hfind
  simpa using hx

theorem memA_shape (A B : List Harf) (p c n : Char) :
    A.any (fun s => s.equals (specCharGlyph A B p c n)) =
      A.any (fun s => s.equals c) := by
  cases hfind : A.find? (fun s => s.equals c) with
  | none => rw [spec_none A B p c n hfind]
  | some h =>
      apply bool_ext
      have hmem : h ∈ A := List.mem_of_find?_eq_some hfind
      have hc : h.equals c = true := find?_equals hfind
      have hform : specCharGlyph A B p c n ∈ h.codes := spec_form A B p c n h hfind
      constructor
      · intro _
        exact List.any_eq_true.mpr ⟨h, hmem, hc⟩
      · intro _
        exact List.any_eq_true.mpr ⟨h, hmem, equals_of_mem_codes hform⟩

theorem memB_shape (A B : List Harf) (hco : coherent (A ++ B)) (p c n : Char) :
    B.any (fun s => s.equals (specCharGlyph A B p c n)) =
      B.any (fun s => s.equals c) := by
  cases hfind : A.find? (fun s => s.equals c) with
  | none => rw [spec_none A B p c n hfind]
  | some h =>
      apply bool_ext
      have hmem : h ∈ A := List.mem_of_find?_eq_some hfind
      have hc : h.equals c = true := find?_equals hfind
      have hfe : h.equals (specCharGlyph A B p c n) = true :=
        equals_of_mem_codes (spec_form A B p c n h hfind)
      rw [List.any_eq_true, List.any_eq_true]
      constructor
      · rintro ⟨b, hbB, hbeq⟩
        have hbh : b = h :=
          hco b (List.mem_append.mpr (Or.inr hbB)) h
            (List.mem_append.mpr (Or.inl hmem)) (overlaps_intro hbeq hfe)
        exact ⟨b, hbB, hbh ▸ hc⟩
      · rintro ⟨b, hbB, hbeq⟩
        have hbh : b = h :=
          hco b (List.mem_append.mpr (Or.inr hbB)) h
            (List.mem_append.mpr (Or.inl hmem)) (overlaps_intro hbeq hc)
        exact ⟨b, hbB, hbh ▸ hfe⟩

theorem find?_shape (A B : List Harf) (hco : coherent (A ++ B)) (p c n : Char)
    (h : Harf) (hfind : A.find? (fun s => s.equals c) = some h) :
    A.find? (fun s => s.equals (specCharGlyph A B p c n)) = some h := by
  have hmem : h ∈ A := List.mem_of_find?_eq_some hfind
  have hfe : h.equals (specCharGlyph A B p c n) = true :=
    equals_of_mem_codes (spec_form A B p c n h hfind)
  have hsome : (A.find? (fun s => s.equals (specCharGlyph A B p c n))).isSome :=
    List.find?_isSome.mpr ⟨h, hmem, hfe⟩
  obtain ⟨h2, hh2⟩ := Option.isSome_iff_exists.mp hsome
  have hmem2 : h2 ∈ A := List.mem_of_find?_eq_some hh2
  have he2 : h2.equals (specCharGlyph A B p c n) = true := find?_equals hh2
  have h2h : h2 = h :=
    hco h2 (List.mem_append.mpr (Or.inl hmem2)) h
      (List.mem_append.mpr (Or.inl hmem)) (overlaps_intro he2 hfe)
  rw [hh2, h2h]

theorem spec_idem_pointwise (A B : List Harf) (hco : coherent (A ++ B))
    (p c n p2 n2 : Char)
    (hp : A.any (fun s => s.equals p2) = A.any (fun s => s.equals p))
    (hpB : B.any (fun s => s.equals p2) = B.any (fun s => s.equals p))
    (hn : A.any (fun s => s.equals n2) = A.any (fun s => s.equals n)) :
    specCharGlyph A B p2 (specCharGlyph A B p c n) n2 =
      specCharGlyph A B p c n := by
  cases hfind : A.find? (fun s => s.equals c) with
  | none =>
      rw [spec_none A B p c n hfind, spec_none A B p2 c n2 hfind]
  | some h =>
      have hf2 := find?_shape A B hco p c n h hfind
      cases hpa : A.any (fun s => s.equals p) <;>
        cases hna : A.any (fun s => s.equals n) <;>
          cases hpb : B.any (fun s => s.equals p)
      · have hout : specCharGlyph A B p c n = h.Isolated := by
          unfold specCharGlyph; rw [hfind]; simp [hpa, hna, hpb]
        rw [hout] at hf2 ⊢
        unfold specCharGlyph; rw [hf2]; simp [hp, hpB, hn, hpa, hna, hpb]
      · have hout : specCharGlyph A B p c n = h.Isolated := by
          unfold specCharGlyph; rw [hfind]; simp [hpa, hna, hpb]
        rw [hout] at hf2 ⊢
        unfold specCharGlyph; rw [hf2]; simp [hp, hpB, hn, hpa, hna, hpb]
      · have hout : specCharGlyph A B p c n = h.Beggining := by
          unfold specCharGlyph; rw [hfind]; simp [hpa, hna, hpb]
        rw [hout] at hf2 ⊢
        unfold specCharGlyph; rw [hf2]; simp [hp, hpB, hn, hpa, hna, hpb]
      · have hout : specCharGlyph A B p c n = h.Beggining := by
          unfold specCharGlyph; rw [hfind]; simp [hpa, hna, hpb]
        rw [hout] at hf2 ⊢
        unfold specCharGlyph; rw [hf2]; simp [hp, hpB, hn, hpa, hna, hpb]
      · have hout : specCharGlyph A B p c n = h.Final := by
          unfold specCharGlyph; rw [hfind]; simp [hpa, hna, hpb]
        rw [hout] at hf2 ⊢
        unfold specCharGlyph; rw [hf2]; simp [hp, hpB, hn, hpa, hna, hpb]
      · have hout : specCharGlyph A B p c n = h.Isolated := by
          unfold specCharGlyph; rw [hfind]; simp [hpa, hna, hpb]
        rw [hout] at hf2 ⊢
        unfold specCharGlyph; rw [hf2]; simp [hp, hpB, hn, hpa, hna, hpb]
      · have hout : specCharGlyph A B p c n = h.Medium := by
          unfold specCharGlyph; rw [hfind]; simp [hpa, hna, hpb]
        rw [hout] at hf2 ⊢
        unfold specCharGlyph; rw [hf2]; simp [hp, hpB, hn, hpa, hna, hpb]
      · have hout : specCharGlyph A B p c n = h.Beggining := by
          unfold specCharGlyph; rw [hfind]; simp [hpa, hna, hpb]
        rw [hout] at hf2 ⊢
        unfold specCharGlyph; rw [hf2]; simp [hp, hpB, hn, hpa, hna, hpb]

theorem memA_prevAt (A B : List Harf) (w : List Char) (i : Nat)
    (hi : i < w.length) :
    A.any (fun s => s.equals (prevAt (ToGlyph A B w) i)) =
      A.any (fun s => s.equals (prevAt w i)) := by
  rcases Nat.eq_zero_or_pos i with h0 | h0
  · subst h0; simp [prevAt]
  · have hne : ¬(i = 0) := by omega
    have hi1 : i - 1 < w.length := by omega
    have h1 : prevAt (ToGlyph A B w) i =
        specCharGlyph A B (prevAt w (i - 1)) (w.getD (i - 1) nul)
          (nextAt w (i - 1)) := by
      unfold prevAt
      rw [if_neg hne]
      exact toGlyph_getD A B w (i - 1) hi1
    have h2 : prevAt w i = w.getD (i - 1) nul := by
      unfold prevAt; rw [if_neg hne]
    rw [h1, h2]
    exact memA_shape A B (prevAt w (i - 1)) (w.getD (i - 1) nul) (nextAt w (i - 1))

theorem memB_prevAt (A B : List Harf) (hco : coherent (A ++ B)) (w : List Char)
    (i : Nat) (hi : i < w.length) :
    B.any (fun s => s.equals (prevAt (ToGlyph A B w) i)) =
      B.any (fun s => s.equals (prevAt w i)) := by
  rcases Nat.eq_zero_or_pos i with h0 | h0
  · subst h0; simp [prevAt]
  · have hne : ¬(i = 0) := by omega
    have hi1 : i - 1 < w.length := by omega
    have h1 : prevAt (ToGlyph A B w) i =
        specCharGlyph A B (prevAt w (i - 1)) (w.getD (i - 1) nul)
          (nextAt w (i - 1)) := by
      unfold prevAt
      rw [if_neg hne]
      exact toGlyph_getD A B w (i - 1) hi1
    have h2 : prevAt w i = w.getD (i - 1) nul := by
      unfold prevAt; rw [if_neg hne]
    rw [h1, h2]
    exact memB_shape A B hco (prevAt w (i - 1)) (w.getD (i - 1) nul)
      (nextAt w (i - 1))

theorem memA_nextAt (A B : List Harf) (w : List Char) (i : Nat)
    (hi : i < w.length) :
    A.any (fun s => s.equals (nextAt (ToGlyph A B w) i)) =
      A.any (fun s => s.equals (nextAt w i)) := by
  have hlen : (ToGlyph A B w).length = w.length := toGlyph_length A B w
  unfold nextAt
  rw [hlen]
  by_cases hc : i + 1 ≤ w.length - 1
  · rw [if_pos hc, if_pos hc]
    have hi1 : i + 1 < w.length := by omega
    rw [toGlyph_getD A B w (i + 1) hi1]
    exact memA_shape A B (prevAt w (i + 1)) (w.getD (i + 1) nul) (nextAt w (i + 1))
  · rw [if_neg hc, if_neg hc]

theorem shape_idem_aux (A B : List Harf) (hco : coherent (A ++ B))
    (w : List Char) : ToGlyph A B (ToGlyph A B w) = ToGlyph A B w := by
  have hlen : (ToGlyph A B w).length = w.length := toGlyph_length A B w
  apply List.ext_getElem
  · rw [toGlyph_length]
  intro i h1 h2
  have hi : i < w.length := by rw [hlen] at h2; exact h2
  rw [toGlyph_getElem A B (ToGlyph A B w) i h1, getCharGlyph_eq_spec]
  have hgd : (ToGlyph A B w).getD i nul =
      specCharGlyph A B (prevAt w i) (w.getD i nul) (nextAt w i) :=
    toGlyph_getD A B w i hi
  have hel : (ToGlyph A B w)[i] = (ToGlyph A B w).getD i nul :=
    (List.getD_eq_getElem _ _ h2).symm
  rw [hel, hgd]
  exact spec_idem_pointwise A B hco (prevAt w i) (w.getD i nul) (nextAt w i)
    (prevAt (ToGlyph A B w) i) (nextAt (ToGlyph A B w) i)
    (memA_prevAt A B w i hi) (memB_prevAt A B hco w i hi)
    (memA_nextAt A B w i hi)

theorem getCharGlyph_passthrough (A B : List Harf) (p c n : Char)
    (hnone : A.find? (fun s => s.equals c) = none) :
    getCharGlyph A B p c n = c := by
  rw [getCharGlyph_eq_spec]
  exact spec_none A B p c n hnone

theorem toGlyph_of_no_match (A B : List Harf) (s : List Char)
    (hs : ∀ c ∈ s, A.find? (fun x => x.equals c) = none) :
    ToGlyph A B s = s := by
  apply List.ext_getElem
  · rw [toGlyph_length]
  intro i h1 h2
  rw [toGlyph_getElem A B s i h1]
  have hmem : s.getD i nul ∈ s := by
    rw [List.getD_eq_getElem _ _ h2]
    exact List.getElem_mem h2
  rw [getCharGlyph_passthrough A B _ _ _ (hs _ hmem)]
  exact List.getD_eq_getElem _ _ h2

theorem fieldsAux_word (l : List Char) :
    ∀ (cur rest : List Char), (∀ c ∈ l, isSpace c = false) →
      fieldsAux cur (l ++ rest) = fieldsAux (l.reverse ++ cur) rest := by
  induction l with
  | nil => intro cur rest _; simp
  | cons c t ih =>
      intro cur rest hl
      have hc : isSpace c = false := hl c (List.mem_cons_self c t)
      have ht : ∀ x ∈ t, isSpace x = false := fun x hx =>
        hl x (List.mem_cons_of_mem c hx)
      have step : fieldsAux cur ((c :: t) ++ rest) = fieldsAux (c :: cur) (t ++ rest) := by
        simp [fieldsAux, hc]
      rw [step, ih (c :: cur) rest ht]
      simp

theorem joinWords_cons (w : List Char) (ws : List (List Char)) (h : ws ≠ []) :
    joinWords (w :: ws) = w ++ ' ' :: joinWords ws := by
  cases ws with
  | nil => exact absurd rfl h
  | cons a t => rfl

theorem joinWords_ne_nil (g : List (List Char)) (hg : g ≠ [])
    (hw : ∀ w ∈ g, w ≠ []) : joinWords g ≠ [] := by
  cases g with
  | nil => exact absurd rfl hg
  | cons w ws =>
      cases ws with
      | nil => exact hw w (List.mem_cons_self _ _)
      | cons a t =>
          rw [joinWords_cons w (a :: t) (by simp)]
          intro hcontra
          have := congrArg List.length hcontra
          simp at this

theorem joinWords_append_single (g : List (List Char)) (w : List Char)
    (hg : g ≠ []) : joinWords (g ++ [w]) = joinWords g ++ ' ' :: w := by
  induction g with
  | nil => exact absurd rfl hg
  | cons a t ih =>
      cases t with
      | nil => rfl
      | cons b t2 =>
          rw [List.cons_append, joinWords_cons a ((b :: t2) ++ [w]) (by simp),
            joinWords_cons a (b :: t2) (by simp), ih (by simp)]
          simp

theorem fields_join (g : List (List Char)) (hg : goodWords g) :
    fields (joinWords g) = g := by
  induction g with
  | nil => rfl
  | cons w ws ih =>
      obtain ⟨hwne, hwsp⟩ := hg w (List.mem_cons_self _ _)
      have hws : goodWords ws := fun x hx => hg x (List.mem_cons_of_mem _ hx)
      cases ws with
      | nil =>
          show fields (joinWords [w]) = [w]
          have : joinWords [w] = w ++ [] := by simp [joinWords]
          rw [fields, this, fieldsAux_word w [] [] hwsp]
          simp [fieldsAux, hwne]
      | cons a t =>
          rw [fields, joinWords_cons w (a :: t) (by simp),
            fieldsAux_word w [] (' ' :: joinWords (a :: t)) hwsp]
          have hsp : isSpace ' ' = true := by decide
          have step : fieldsAux (w.reverse ++ []) (' ' :: joinWords (a :: t)) =
              w :: fieldsAux [] (joinWords (a :: t)) := by
            simp [fieldsAux, hsp, hwne]
          rw [step]
          have hfld : fieldsAux [] (joinWords (a :: t)) = fields (joinWords (a :: t)) := rfl
          rw [hfld, ih hws]

theorem fieldsAux_good (s : List Char) :
    ∀ cur, (∀ c ∈ cur, isSpace c = false) →
      ∀ w ∈ fieldsAux cur s, w ≠ [] ∧ ∀ c ∈ w, isSpace c = false := by
  induction s with
  | nil =>
      intro cur hcur w hw
      by_cases hc : cur.isEmpty
      · simp [fieldsAux, hc] at hw
      · simp [fieldsAux, hc] at hw
        subst hw
        constructor
        · simpa [List.isEmpty_iff] using hc
        · intro c hcmem
          exact hcur c (List.mem_reverse.mp hcmem)
  | cons c t ih =>
      intro cur hcur w hw
      by_cases hc : isSpace c
      · simp only [fieldsAux, hc, if_pos] at hw
        by_cases hce : cur.isEmpty
        · rw [if_pos hce] at hw
          exact ih [] (by simp) w hw
        · rw [if_neg hce] at hw
          rcases List.mem_cons.mp hw with hfirst | hrest
          · subst hfirst
            constructor
            · simpa [List.isEmpty_iff] using hce
            · intro x hx
              exact hcur x (List.mem_reverse.mp hx)
          · exact ih [] (by simp) w hrest
      · have hc' : isSpace c = false := by simpa using hc
        simp only [fieldsAux, hc'] at hw
        refine ih (c :: cur) ?_ w hw
        intro x hx
        rcases List.mem_cons.mp hx with h | h
        · subst h; exact hc'
        · exact hcur x h

theorem fields_good (s : List Char) : goodWords (fields s) :=
  fun w hw => fieldsAux_good s [] (by simp) w hw

theorem joinWords_head (g : List (List Char)) (hg : goodWords g) (hne : g ≠ []) :
    ∃ c rest, joinWords g = c :: rest ∧ isSpace c = false := by
  cases g with
  | nil => exact absurd rfl hne
  | cons w ws =>
      obtain ⟨hwne, hwsp⟩ := hg w (List.mem_cons_self _ _)
      cases hw : w with
      | nil => exact absurd hw hwne
      | cons c w2 =>
          have hc : isSpace c = false := hwsp c (hw ▸ List.mem_cons_self _ _)
          cases ws with
          | nil => exact ⟨c, w2, by simp [joinWords, hw], hc⟩
          | cons a t =>
              exact ⟨c, w2 ++ ' ' :: joinWords (a :: t),
                by rw [joinWords_cons (c :: w2) (a :: t) (by simp)]; simp, hc⟩

theorem joinWords_last (g : List (List Char)) (hg : goodWords g) (hne : g ≠ []) :
    ∃ c rest, (joinWords g).reverse = c :: rest ∧ isSpace c = false := by
  induction g with
  | nil => exact absurd rfl hne
  | cons w ws ih =>
      obtain ⟨hwne, hwsp⟩ := hg w (List.mem_cons_self _ _)
      have hws : goodWords ws := fun x hx => hg x (List.mem_cons_of_mem _ hx)
      cases ws with
      | nil =>
          cases hw : w.reverse with
          | nil =>
              exact absurd (by simpa using congrArg List.reverse hw) hwne
          | cons c rest =>
              have hcmem : c ∈ w := by
                rw [← List.mem_reverse, hw]; exact List.mem_cons_self _ _
              exact ⟨c, rest, by simpa [joinWords] using hw, hwsp c hcmem⟩
      | cons a t =>
          obtain ⟨c, rest, hrev, hc⟩ := ih hws (by simp)
          refine ⟨c, rest ++ ' ' :: w.reverse, ?_, hc⟩
          rw [joinWords_cons w (a :: t) (by simp), List.reverse_append]
          simp [hrev]

theorem trim_join (g : List (List Char)) (hg : goodWords g) :
    trimSpace (joinWords g) = joinWords g := by
  cases hge : g with
  | nil => rfl
  | cons w ws =>
      rw [← hge]
      obtain ⟨c1, r1, hh, hc1⟩ := joinWords_head g hg (by simp [hge])
      obtain ⟨c2, r2, hl, hc2⟩ := joinWords_last g hg (by simp [hge])
      unfold trimSpace
      rw [hh, List.dropWhile_cons_of_neg (by simp [hc1]), ← hh, hl,
        List.dropWhile_cons_of_neg (by simp [hc2]), ← hl, List.reverse_reverse]

theorem joinWords_eq_nil_iff (g : List (List Char)) (hg : goodWords g) :
    joinWords g = [] ↔ g = [] := by
  constructor
  · intro h
    by_contra hne
    exact joinWords_ne_nil g hne (fun w hw => (hg w hw).1) h
  · intro h; subst h; rfl

theorem splitAux_eq_wrap (maxChars : Int) (ws : List (List Char)) :
    ∀ gcur lines, goodWords ws → goodWords gcur →
      splitAux maxChars ws lines (joinWords gcur) (joinWords gcur).length =
        lines ++ (wrapAux maxChars gcur ws).map joinWords := by
  induction ws with
  | nil =>
      intro gcur lines _ hg
      unfold splitAux wrapAux
      by_cases hg0 : gcur = []
      · subst hg0; simp [joinWords]
      · have hjne : joinWords gcur ≠ [] :=
          joinWords_ne_nil gcur hg0 (fun w hw => (hg w hw).1)
        rw [if_neg (by simpa [List.isEmpty_iff] using hjne),
          if_neg (by simpa [List.isEmpty_iff] using hg0), trim_join gcur hg]
        simp
  | cons w ws2 ih =>
      intro gcur lines hws hg
      have hw := hws w (List.mem_cons_self _ _)
      have hws2 : goodWords ws2 := fun x hx => hws x (List.mem_cons_of_mem _ hx)
      have hwgood : goodWords [w] := by
        intro x hx
        rw [List.mem_singleton] at hx
        subst hx; exact hw
      have hjw : joinWords [w] = w := rfl
      unfold splitAux wrapAux
      by_cases h1 : 0 < (joinWords gcur).length ∧
          maxChars < ((joinWords gcur).length : Int) + ((w.length : Int) + 1)
      · rw [if_pos h1, if_pos h1]
        have hcall := ih [w] (lines ++ [trimSpace (joinWords gcur)]) hws2 hwgood
        rw [hjw] at hcall
        rw [hcall, trim_join gcur hg]
        simp
      · rw [if_neg h1, if_neg h1]
        by_cases h2 : (joinWords gcur).length = 0
        · rw [if_pos h2, if_pos h2]
          have hcall := ih [w] lines hws2 hwgood
          rw [hjw] at hcall
          exact hcall
        · rw [if_neg h2, if_neg h2]
          have hgne : gcur ≠ [] := by
            intro hcontra
            subst hcontra
            exact h2 rfl
          have hgood2 : goodWords (gcur ++ [w]) := by
            intro x hx
            rcases List.mem_append.mp hx with h | h
            · exact hg x h
            · rw [List.mem_singleton] at h; subst h; exact hw
          have hjoin : joinWords (gcur ++ [w]) = joinWords gcur ++ ' ' :: w :=
            joinWords_append_single gcur w hgne
          have hlen : (joinWords (gcur ++ [w])).length =
              (joinWords gcur).length + (w.length + 1) := by
            rw [hjoin]; simp [List.length_append]
          rw [← hjoin, ← hlen]
          exact ih (gcur ++ [w]) lines hws2 hgood2

theorem wrap_flatten (maxChars : Int) (ws : List (List Char)) :
    ∀ gcur, goodWords ws → goodWords gcur →
      (wrapAux maxChars gcur ws).flatten = gcur ++ ws := by
  induction ws with
  | nil =>
      intro gcur _ hg
      unfold wrapAux
      by_cases hg0 : gcur = []
      · subst hg0; simp
      · rw [if_neg (by simpa [List.isEmpty_iff] using hg0)]
        simp
  | cons w ws2 ih =>
      intro gcur hws hg
      have hw := hws w (List.mem_cons_self _ _)
      have hws2 : goodWords ws2 := fun x hx => hws x (List.mem_cons_of_mem _ hx)
      have hwgood : goodWords [w] := by
        intro x hx
        rw [List.mem_singleton] at hx
        subst hx; exact hw
      unfold wrapAux
      by_cases h1 : 0 < (joinWords gcur).length ∧
          maxChars < ((joinWords gcur).length : Int) + ((w.length : Int) + 1)
      · rw [if_pos h1]
        simp only [List.flatten_cons]
        rw [ih [w] hws2 hwgood]
        simp
      · rw [if_neg h1]
        by_cases h2 : (joinWords gcur).length = 0
        · rw [if_pos h2]
          have hgnil : gcur = [] := by
            rcases List.eq_nil_or_concat gcur with h | _
            · exact h
            · by_contra hne
              exact absurd ((joinWords_eq_nil_iff gcur hg).mp
                (List.length_eq_zero.mp h2)) hne
          subst hgnil
          rw [ih [w] hws2 hwgood]
          simp
        · rw [if_neg h2]
          have hgne : gcur ≠ [] := by
            intro hcontra; subst hcontra; exact h2 rfl
          have hgood2 : goodWords (gcur ++ [w]) := by
            intro x hx
            rcases List.mem_append.mp hx with h | h
            · exact hg x h
            · rw [List.mem_singleton] at h; subst h; exact hw
          rw [ih (gcur ++ [w]) hws2 hgood2]
          simp

theorem wrap_lines (maxChars : Int) (ws : List (List Char)) :
    ∀ gcur, goodWords ws → goodWords gcur →
      (gcur ≠ [] → gcur.length = 1 ∨ ((joinWords gcur).length : Int) ≤ maxChars) →
      ∀ g ∈ wrapAux maxChars gcur ws,
        g ≠ [] ∧ (g.length = 1 ∨ ((joinWords g).length : Int) ≤ maxChars) := by
  induction ws with
  | nil =>
      intro gcur _ hg hinv g hmem
      unfold wrapAux at hmem
      by_cases hg0 : gcur.isEmpty
      · rw [if_pos hg0] at hmem
        simp at hmem
      · rw [if_neg hg0] at hmem
        rw [List.mem_singleton] at hmem
        subst hmem
        have hne : g ≠ [] := by simpa [List.isEmpty_iff] using hg0
        exact ⟨hne, hinv hne⟩
  | cons w ws2 ih =>
      intro gcur hws hg hinv g hmem
      have hw := hws w (List.mem_cons_self _ _)
      have hws2 : goodWords ws2 := fun x hx => hws x (List.mem_cons_of_mem _ hx)
      have hwgood : goodWords [w] := by
        intro x hx
        rw [List.mem_singleton] at hx
        subst hx; exact hw
      unfold wrapAux at hmem
      by_cases h1 : 0 < (joinWords gcur).length ∧
          maxChars < ((joinWords gcur).length : Int) + ((w.length : Int) + 1)
      · rw [if_pos h1] at hmem
        rcases List.mem_cons.mp hmem with hfirst | hrest
        · subst hfirst
          have hne : g ≠ [] := by
            intro hcontra
            subst hcontra
            simp [joinWords] at h1
          exact ⟨hne, hinv hne⟩
        · exact ih [w] hws2 hwgood (fun _ => Or.inl rfl) g hrest
      · rw [if_neg h1] at hmem
        by_cases h2 : (joinWords gcur).length = 0
        · rw [if_pos h2] at hmem
          exact ih [w] hws2 hwgood (fun _ => Or.inl rfl) g hmem
        · rw [if_neg h2] at hmem
          have hgne : gcur ≠ [] := by
            intro hcontra; subst hcontra; exact h2 rfl
          have hgood2 : goodWords (gcur ++ [w]) := by
            intro x hx
            rcases List.mem_append.mp hx with h | h
            · exact hg x h
            · rw [List.mem_singleton] at h; subst h; exact hw
          refine ih (gcur ++ [w]) hws2 hgood2 ?_ g hmem
          intro _
          right
          rw [joinWords_append_single gcur w hgne]
          push_neg at h1
          have hle := h1 (by omega)
          simp [List.length_append]
          omega

theorem runsSpec_take_drop (t : List (List Char)) :
    runsSpec t = (t.takeWhile isEnglishWord).reverse ++
      runsSpec (t.dropWhile isEnglishWord) := by
  cases t with
  | nil => simp [runsSpec]
  | cons w t2 =>
      by_cases hw : isEnglishWord w
      · rw [runsSpec, List.takeWhile_cons_of_pos hw, List.dropWhile_cons_of_pos hw]
        rw [if_pos hw]
      · rw [List.takeWhile_cons_of_neg hw, List.dropWhile_cons_of_neg hw]
        simp

theorem revRunsAux_eq (ws : List (List Char)) :
    ∀ run, revRunsAux run ws = (ws.takeWhile isEnglishWord).reverse ++ run ++
      runsSpec (ws.dropWhile isEnglishWord) := by
  induction ws with
  | nil => intro run; simp [revRunsAux, runsSpec]
  | cons w t ih =>
      intro run
      by_cases hw : isEnglishWord w
      · rw [revRunsAux, if_pos hw, ih (w :: run),
          List.takeWhile_cons_of_pos hw, List.dropWhile_cons_of_pos hw]
        simp
      · rw [revRunsAux, if_neg hw, List.takeWhile_cons_of_neg hw,
          List.dropWhile_cons_of_neg hw]
        have hrec : revRunsAux [] t = runsSpec t := by
          rw [ih [], List.append_nil, ← runsSpec_take_drop]
        rw [hrec]
        have hstep : runsSpec (w :: t) = w :: runsSpec t := by
          rw [runsSpec, if_neg hw]
        rw [hstep]
        simp

theorem reverseEnglishRuns_eq_spec (ws : List (List Char)) :
    reverseEnglishRuns ws = runsSpec ws := by
  rw [reverseEnglishRuns, revRunsAux_eq ws [], List.append_nil,
    ← runsSpec_take_drop]

/-- C1: for every Letter Table, non-joining-after set and input string, the
shaper assigns each code point its positional glyph by the spec's four-case
rule (initial/medial between letters by the non-joining test on the previous
code point; initial when only the next matches; isolated/final when only the
previous matches, again by the non-joining test; isolated when neither
matches), with any of a Letter's five code points accepted as a match and
the 0 sentinel as out-of-bounds neighbor. -/
theorem shaper_four_case_rule (A B : List Harf) (text : List Char) :
    ToGlyph A B text = (List.range text.length).map (fun i =>
      specCharGlyph A B (prevAt text i) (text.getD i nul) (nextAt text i)) := by
  unfold ToGlyph
  simp only [getCharGlyph_eq_spec]

/-- C2 counterexample: the claim asserts that for "Hello نص World" the word
Hello precedes World in the output, and that only numeric/Arabic-classified
words bound the re-reversed runs.  On the code, World comes out before Hello
(each Latin word is a singleton run, and singleton runs are unchanged by the
internal reversal), and in "نص cd ab1" the word ab1 — classified "other" but
containing a digit — acts as a run boundary, so the output keeps cd after
ab1 instead of the claimed re-reversed cd-before-ab1 order. -/
theorem bidi_word_order_counterexample :
    (fields (FixBidiText sampleAlphabet sampleBegAfter
        (String.toList "Hello نص World") 0)).indexOf (String.toList "World") <
      (fields (FixBidiText sampleAlphabet sampleBegAfter
        (String.toList "Hello نص World") 0)).indexOf (String.toList "Hello") ∧
    fields (FixBidiText sampleAlphabet sampleBegAfter
        (String.toList "نص cd ab1") 0) =
      [String.toList "ab1", String.toList "cd", String.toList "صن"] :=
  ⟨by decide, by decide⟩

/-- C2 (amended): after the per-line reversal, every maximal contiguous run
of words containing no Arabic-script and no digit code point is internally
reversed back; a run boundary is exactly a word containing an Arabic-script
or digit code point.  For "Hello نص World" the output word order is World,
shaped-reversed-نص, Hello: Latin words separated by an Arabic word appear in
reversed relative order, each being a singleton run. -/
theorem bidi_english_runs_amended :
    (∀ ws : List (List Char), reverseEnglishRuns ws = runsSpec ws) ∧
    fields (FixBidiText sampleAlphabet sampleBegAfter
        (String.toList "Hello نص World") 0) =
      [String.toList "World", String.toList "صن", String.toList "Hello"] :=
  ⟨reverseEnglishRuns_eq_spec, by decide⟩

/-- C3 counterexample: the Devanagari digit U+0966 is neither an ASCII
decimal digit nor an Arabic-Indic digit, yet the classifier returns true on
it (Go's unicode.IsDigit covers the whole Nd category). -/
theorem isNumeric_counterexample :
    isNumeric (Char.ofNat 0x0966) = true ∧
    ¬(0x0030 ≤ (Char.ofNat 0x0966).toNat ∧ (Char.ofNat 0x0966).toNat ≤ 0x0039) ∧
    ¬(0x0660 ≤ (Char.ofNat 0x0966).toNat ∧ (Char.ofNat 0x0966).toNat ≤ 0x0669) := by
  refine ⟨by decide, by decide, by decide⟩

/-- C3 (amended): the classifier returns true on every ASCII decimal digit
and every Arabic-Indic digit, and in general it returns true exactly on the
Unicode decimal digits (category Nd, which also contains digits of other
scripts such as Devanagari); the Arabic-Indic range test is subsumed. -/
theorem isNumeric_amended :
    (∀ c : Char, 0x0030 ≤ c.toNat → c.toNat ≤ 0x0039 → isNumeric c = true) ∧
    (∀ c : Char, 0x0660 ≤ c.toNat → c.toNat ≤ 0x0669 → isNumeric c = true) ∧
    (∀ c : Char, isNumeric c = unicodeIsDigit c) := by
  refine ⟨?_, ?_, ?_⟩
  · intro c h1 h2
    have hd : unicodeIsDigit c = true := by
      simp [unicodeIsDigit, NdRanges]
      omega
    simp [isNumeric, hd]
  · intro c h1 h2
    have hd : unicodeIsDigit c = true := by
      simp [unicodeIsDigit, NdRanges]
      omega
    simp [isNumeric, hd]
  · intro c
    apply bool_ext
    constructor
    · intro hnum
      rw [isNumeric, Bool.or_eq_true] at hnum
      rcases hnum with hd | hrange
      · exact hd
      · rw [Bool.and_eq_true] at hrange
        have h1 : 0x0660 ≤ c.toNat := by simpa using hrange.1
        have h2 : c.toNat ≤ 0x0669 := by simpa using hrange.2
        simp [unicodeIsDigit, NdRanges]
        omega
    · intro hd
      rw [isNumeric, Bool.or_eq_true]
      exact Or.inl hd

theorem isNumeric_amended_witness :
    (0x0030 ≤ ('7' : Char).toNat ∧ ('7' : Char).toNat ≤ 0x0039 ∧
      isNumeric '7' = true) ∧
    isNumeric (Char.ofNat 0x0667) = true :=
  ⟨⟨by decide, by decide, isNumeric_amended.1 '7' (by decide) (by decide)⟩,
    isNumeric_amended.2.1 (Char.ofNat 0x0667) (by decide) (by decide)⟩

/-- C4: the word classifier of FixBidiText gives the numeric test precedence
over the Arabic test: a word all of whose code points are digits passes
through unchanged for any letter data, never shaped or reversed — in
particular the Arabic-Indic word "١٢٣" survives the whole FixBidiText
pipeline untouched even though its code points are in the Arabic ranges. -/
theorem numeric_word_precedence (A B : List Harf) (w : List Char)
    (h : isNumericWord w = true) :
    processWord A B w = w ∧
    FixBidiText A B (String.toList "١٢٣") 0 = String.toList "١٢٣" := by
  constructor
  · simp [processWord, h]
  · have hw : isNumericWord (String.toList "١٢٣") = true := by decide
    have hfields : fields (String.toList "١٢٣") = [String.toList "١٢٣"] := by decide
    have heng : isEnglishWord (String.toList "١٢٣") = false := by decide
    have hw2 : isNumericWord ['١', '٢', '٣'] = true := hw
    have heng2 : isEnglishWord ['١', '٢', '٣'] = false := heng
    unfold FixBidiText
    rw [if_neg (by decide)]
    simp only [show ¬((0:Int) < 0) from by decide, if_false]
    simp [processLine, hfields, processWord, hw2, reverseEnglishRuns, revRunsAux,
      heng2, joinWords, joinLines]

theorem numeric_word_precedence_witness :
    isNumericWord (String.toList "١٢٣") = true ∧
    processWord sampleAlphabet sampleBegAfter (String.toList "١٢٣") =
      String.toList "١٢٣" :=
  ⟨by decide,
    (numeric_word_precedence sampleAlphabet sampleBegAfter
      (String.toList "١٢٣") (by decide)).1⟩

/-- C5: shaping is idempotent for every letter data satisfying the spec's
Letter Table invariant (no code point recorded by two distinct entries of
the alphabet or the non-joining set): shaping an already-shaped string
re-finds the same letters, re-derives the same membership flags and so the
same forms. -/
theorem shape_idempotent (A B : List Harf) (hco : coherent (A ++ B))
    (w : List Char) : ToGlyph A B (ToGlyph A B w) = ToGlyph A B w :=
  shape_idem_aux A B hco w

theorem shape_idempotent_witness :
    coherent (sampleAlphabet ++ sampleBegAfter) ∧
    ToGlyph sampleAlphabet sampleBegAfter
        (ToGlyph sampleAlphabet sampleBegAfter (String.toList "بيت")) =
      ToGlyph sampleAlphabet sampleBegAfter (String.toList "بيت") :=
  ⟨by unfold coherent; decide,
    shape_idempotent sampleAlphabet sampleBegAfter (by unfold coherent; decide)
      (String.toList "بيت")⟩

/-- C6: the shaper returns exactly as many code points as it receives, and
the i-th output code point is computed from the i-th input code point (with
its two neighbors): shaping is length- and order-preserving. -/
theorem shape_length_order (A B : List Harf) (text : List Char) :
    (ToGlyph A B text).length = text.length ∧
    ∀ i, i < text.length →
      (ToGlyph A B text).getD i nul =
        getCharGlyph A B (prevAt text i) (text.getD i nul) (nextAt text i) := by
  refine ⟨toGlyph_length A B text, ?_⟩
  intro i hi
  rw [toGlyph_getD A B text i hi, getCharGlyph_eq_spec]

theorem shape_length_order_witness :
    (ToGlyph sampleAlphabet sampleBegAfter (String.toList "بيت")).length =
      (String.toList "بيت").length ∧
    (0 < (String.toList "بيت").length ∧
      (ToGlyph sampleAlphabet sampleBegAfter (String.toList "بيت")).getD 0 nul =
        getCharGlyph sampleAlphabet sampleBegAfter
          (prevAt (String.toList "بيت") 0)
          ((String.toList "بيت").getD 0 nul) (nextAt (String.toList "بيت") 0)) :=
  ⟨(shape_length_order sampleAlphabet sampleBegAfter (String.toList "بيت")).1,
    by decide,
    (shape_length_order sampleAlphabet sampleBegAfter
      (String.toList "بيت")).2 0 (by decide)⟩

/-- C7: for every text and positive width, the greedy wrap produces lines of
code-point length at most the width, except that an oversized single word
occupies a line of its own unmodified (the line is then literally one of the
input's words); and a word is appended to a nonempty current line exactly
when current length + word length + 1 fits the width. -/
theorem wrap_line_width (text : List Char) (maxChars : Int) (h : 0 < maxChars) :
    (∀ line ∈ splitIntoLinesByChars text maxChars,
        ((line.length : Int) ≤ maxChars ∨
          (line ∈ fields text ∧ maxChars < (line.length : Int)))) ∧
    (∀ (ws lines : List (List Char)) (cur : List Char) (cnt : Nat)
        (w : List Char), 0 < cnt →
        splitAux maxChars (w :: ws) lines cur cnt =
          if (cnt : Int) + ((w.length : Int) + 1) ≤ maxChars then
            splitAux maxChars ws lines (cur ++ ' ' :: w) (cnt + (w.length + 1))
          else splitAux maxChars ws (lines ++ [trimSpace cur]) w w.length) := by
  constructor
  · intro line hline
    have hgw : goodWords (fields text) := fields_good text
    have hnil : goodWords ([] : List (List Char)) := by
      intro x hx
      exact absurd hx (List.not_mem_nil x)
    have key : splitAux maxChars (fields text) [] [] 0 =
        [] ++ (wrapAux maxChars [] (fields text)).map joinWords :=
      splitAux_eq_wrap maxChars (fields text) [] [] hgw hnil
    rw [splitIntoLinesByChars, key, List.nil_append, List.mem_map] at hline
    obtain ⟨g, hgmem, hgeq⟩ := hline
    obtain ⟨hgne, hdisj⟩ := wrap_lines maxChars (fields text) [] hgw hnil
      (fun hne => absurd rfl hne) g hgmem
    rcases hdisj with hsing | hle
    · obtain ⟨w, hw⟩ := List.length_eq_one.mp hsing
      have hlw : line = w := by
        rw [← hgeq, hw]
        rfl
      by_cases hlen : (line.length : Int) ≤ maxChars
      · exact Or.inl hlen
      · refine Or.inr ⟨?_, by omega⟩
        have hfl : (wrapAux maxChars [] (fields text)).flatten =
            [] ++ fields text :=
          wrap_flatten maxChars (fields text) [] hgw hnil
        have hwmem : w ∈ (wrapAux maxChars [] (fields text)).flatten :=
          List.mem_flatten.mpr ⟨g, hgmem, by rw [hw]; simp⟩
        rw [hfl, List.nil_append] at hwmem
        rw [hlw]
        exact hwmem
    · refine Or.inl ?_
      rw [← hgeq]
      exact hle
  · intro ws lines cur cnt w hcnt
    have hsplit : splitAux maxChars (w :: ws) lines cur cnt =
        if 0 < cnt ∧ maxChars < (cnt : Int) + ((w.length : Int) + 1) then
          splitAux maxChars ws (lines ++ [trimSpace cur]) w w.length
        else if cnt = 0 then splitAux maxChars ws lines w w.length
        else splitAux maxChars ws lines (cur ++ ' ' :: w)
          (cnt + (w.length + 1)) := rfl
    rw [hsplit]
    by_cases hc : (cnt : Int) + ((w.length : Int) + 1) ≤ maxChars
    · rw [if_pos hc, if_neg (by push_neg; intro _; omega), if_neg (by omega)]
    · rw [if_neg hc, if_pos ⟨hcnt, by omega⟩]

theorem wrap_line_width_witness :
    (0 : Int) < 5 ∧
    (((String.toList "aa bb").length : Int) ≤ 5 ∨
      (String.toList "aa bb" ∈ fields (String.toList "aa bb ccc") ∧
        5 < ((String.toList "aa bb").length : Int))) :=
  ⟨by decide,
    (wrap_line_width (String.toList "aa bb ccc") 5 (by decide)).1
      (String.toList "aa bb") (by decide)⟩

/-- C8: a code point with no Letter Table entry is passed through unchanged
by the shaper regardless of its neighbors, and consequently a string with no
Arabic-script code point is shaped to itself (given that every code point
recorded by the Letter Table is Arabic-script). -/
theorem shape_passthrough (A B : List Harf)
    (hA : ∀ h ∈ A, h.codes.all isArabic = true) (s : List Char)
    (hs : ∀ c ∈ s, isArabic c = false) :
    ToGlyph A B s = s ∧
    ∀ (p c n : Char), A.find? (fun x => x.equals c) = none →
      getCharGlyph A B p c n = c := by
  constructor
  · apply toGlyph_of_no_match
    intro c hc
    apply List.find?_eq_none.mpr
    intro x hx hcontra
    have hcx : x.equals c = true := hcontra
    have hmem : c ∈ x.codes := (equals_iff x c).mp hcx
    have hall := List.all_eq_true.mp (hA x hx) c hmem
    rw [hs c hc] at hall
    exact absurd hall (by simp)
  · intro p c n hnone
    exact getCharGlyph_passthrough A B p c n hnone

theorem shape_passthrough_witness :
    (∀ h ∈ sampleAlphabet, h.codes.all isArabic = true) ∧
    (∀ c ∈ String.toList "Hello!", isArabic c = false) ∧
    ToGlyph sampleAlphabet sampleBegAfter (String.toList "Hello!") =
      String.toList "Hello!" :=
  ⟨by decide, by decide,
    (shape_passthrough sampleAlphabet sampleBegAfter (by decide)
      (String.toList "Hello!") (by decide)).1⟩

/-- C10: line wrapping preserves the word sequence: concatenating the word
lists of the produced lines, in line order, yields exactly the word list of
the input text. -/
theorem wrap_preserves_words (text : List Char) (maxChars : Int)
    (h : 1 ≤ maxChars) :
    ((splitIntoLinesByChars text maxChars).map fields).flatten = fields text := by
  have hgw : goodWords (fields text) := fields_good text
  have hnil : goodWords ([] : List (List Char)) := by
    intro x hx
    exact absurd hx (List.not_mem_nil x)
  have key : splitAux maxChars (fields text) [] [] 0 =
      [] ++ (wrapAux maxChars [] (fields text)).map joinWords :=
    splitAux_eq_wrap maxChars (fields text) [] [] hgw hnil
  have hfl : (wrapAux maxChars [] (fields text)).flatten = [] ++ fields text :=
    wrap_flatten maxChars (fields text) [] hgw hnil
  have hgood : ∀ g ∈ wrapAux maxChars [] (fields text), goodWords g := by
    intro g hgmem ww hww
    have hwmem : ww ∈ (wrapAux maxChars [] (fields text)).flatten :=
      List.mem_flatten.mpr ⟨g, hgmem, hww⟩
    rw [hfl, List.nil_append] at hwmem
    exact hgw ww hwmem
  rw [splitIntoLinesByChars, key, List.nil_append, List.map_map]
  have hmap : (wrapAux maxChars [] (fields text)).map (fields ∘ joinWords) =
      (wrapAux maxChars [] (fields text)).map id := by
    apply List.map_congr_left
    intro g hgmem
    exact fields_join g (hgood g hgmem)
  rw [hmap, List.map_id, hfl, List.nil_append]

theorem wrap_preserves_words_witness :
    (1 : Int) ≤ 4 ∧
    ((splitIntoLinesByChars (String.toList "ab cd ef") 4).map fields).flatten =
      fields (String.toList "ab cd ef") :=
  ⟨by decide,
    wrap_preserves_words (String.toList "ab cd ef") 4 (by decide)⟩

end Goarabic
